import Mathlib

/-!
Verification of the product-name extraction core of the image renaming tool.

The core consists of two pure Python functions, `clean_text` and
`extract_product_name`, appearing in identical copies in `src/main.py`
(lines 15-75) and `src/app.py` (lines 19-62).  Python strings are
sequences of Unicode codepoints; we embed them as `List Char` and
translate each string operation the code uses (`str.strip`,
`str.replace`, `str.split`, `str.lower`, the `in` substring operator,
slicing, and the three regular expressions `[^a-zA-Z0-9_&-]`, `_+`,
`\bby\b|\bfrom\b`) directly.  The embedding is exact on the ASCII
fragment; for codepoints beyond ASCII, Python's Unicode-aware
`str.lower` and the Unicode-aware word class of `re` are restricted to
their ASCII behaviour, as the spec's implicit ASCII-ish rule set states.
-/

/-- Python strings modelled as lists of Unicode codepoints. -/
abbrev Str := List Char

/-- Characters stripped by Python `str.strip()` with no arguments:
the codepoints for which `str.isspace` holds (ASCII whitespace, the
file/group/record/unit separators, NEL, NBSP and the Unicode space
codepoints). -/
def pyIsSpace (c : Char) : Bool :=
  decide (c.toNat ∈ [9, 10, 11, 12, 13, 28, 29, 30, 31, 32, 133, 160,
    5760, 8192, 8193, 8194, 8195, 8196, 8197, 8198, 8199, 8200, 8201,
    8202, 8232, 8233, 8239, 8287, 12288])

/-- Drop the characters satisfying `p` from the front of the string:
the one-sided core of Python `str.strip` / `str.lstrip`. -/
def lstripBy (p : Char → Bool) (s : Str) : Str := s.dropWhile p

/-- Drop the characters satisfying `p` from the end of the string:
Python `str.rstrip`. -/
def rstripBy (p : Char → Bool) (s : Str) : Str :=
  (s.reverse.dropWhile p).reverse

/-- Python `str.strip` with the character class `p`: drop matching
characters from both ends. -/
def stripBy (p : Char → Bool) (s : Str) : Str := rstripBy p (lstripBy p s)

/-- Python `text.strip()` (no arguments): strip whitespace from both ends. -/
def pyStrip (s : Str) : Str := stripBy pyIsSpace s

/-- Python `text.strip("_")`: strip underscores from both ends. -/
def pyStripUnderscores (s : Str) : Str := stripBy (fun c => c == '_') s

/-- Python `text.replace("\n", " ")`: the pattern is a single character,
so the replacement is a character map. -/
def replaceNlBySpace (s : Str) : Str :=
  s.map (fun c => if c == '\n' then ' ' else c)

/-- The character class of the regex `[^a-zA-Z0-9_&-]` in `clean_text`,
complemented: `true` exactly on `a-z`, `A-Z`, `0-9`, `_` (95), `&` (38)
and `-` (45). -/
def allowedChar (c : Char) : Bool :=
  decide (97 ≤ c.toNat ∧ c.toNat ≤ 122) ||
  decide (65 ≤ c.toNat ∧ c.toNat ≤ 90) ||
  decide (48 ≤ c.toNat ∧ c.toNat ≤ 57) ||
  decide (c.toNat = 95) || decide (c.toNat = 38) || decide (c.toNat = 45)

/-- Python `re.sub(r"[^a-zA-Z0-9_&-]", "_", text)`: every character
outside the class becomes an underscore. -/
def sanitizeChars (s : Str) : Str :=
  s.map (fun c => if allowedChar c then c else '_')

/-- Worker for `re.sub(r"_+", "_", text)`: the flag records whether the
previous character of the input was an underscore, so that each maximal
run of underscores contributes a single underscore. -/
def collapseAux : Bool → Str → Str
  | _, [] => []
  | prevU, c :: rest =>
    if c == '_' then
      if prevU then collapseAux true rest
      else '_' :: collapseAux true rest
    else c :: collapseAux false rest

/-- Python `re.sub(r"_+", "_", text)`: collapse every maximal run of
consecutive underscores into a single underscore. -/
def collapseUnderscores (s : Str) : Str := collapseAux false s

/-- `clean_text` from `src/main.py` lines 15-24:
strip whitespace, replace newlines by spaces, replace characters outside
`[a-zA-Z0-9_&-]` by underscores, collapse underscore runs, strip
leading/trailing underscores, and truncate to 80 characters (`text[:80]`). -/
def clean_text (text : Str) : Str :=
  (pyStripUnderscores (collapseUnderscores (sanitizeChars
    (replaceNlBySpace (pyStrip text))))).take 80

/-- Python `text.split('\n')`: split on the newline character; a string
with no newline yields a one-element list, matching Python. -/
def splitNl : Str → List Str
  | [] => [[]]
  | c :: rest =>
    if c == '\n' then [] :: splitNl rest
    else
      match splitNl rest with
      | [] => [[c]]
      | l :: ls => (c :: l) :: ls

/-- The preprocessing of `extract_product_name` (line 32):
`[line.strip() for line in text.split('\n') if line.strip()]`. -/
def pyLines (text : Str) : List Str :=
  ((splitNl text).map pyStrip).filter (fun l => !l.isEmpty)

/-- The Python substring operator `needle in hay` on codepoint lists. -/
def isSubstr (needle : Str) : Str → Bool
  | [] => needle.isEmpty
  | c :: rest => needle.isPrefixOf (c :: rest) || isSubstr needle rest

/-- Python `any(p in s for p in phrases)`. -/
def containsAny (phrases : List Str) (s : Str) : Bool :=
  phrases.any (fun p => isSubstr p s)

/-- Python `str.lower` restricted to its ASCII behaviour (`Char.toLower`
lowercases exactly `A`-`Z`). -/
def pyLower (s : Str) : Str := s.map Char.toLower

/-- The keyword list of Strategy 1 (`src/main.py` lines 35-37). -/
def product_keywords : List Str :=
  ["oil".data, "serum".data, "cream".data, "foundation".data, "lotion".data,
   "gel".data, "moisturizer".data, "cleanser".data, "toner".data,
   "essence".data, "mask".data, "balm".data, "primer".data, "powder".data,
   "lipstick".data, "mascara".data]

/-- The exclusion phrases of Strategy 1 (`src/main.py` lines 44-45). -/
def exclude_phrases : List Str :=
  ["was evaluated".data, "tested".data, "description".data,
   "ingredients".data, "how to use".data, "directions".data,
   "warning".data, "caution".data]

/-- Strategy 1 of `extract_product_name` (`src/main.py` lines 39-49):
iterate the lines; a line whose lowercase form contains a product
keyword, contains no exclusion phrase, and has length strictly between
5 and 100 is returned; on any failed check the loop continues. -/
def strat1 : List Str → Option Str
  | [] => none
  | line :: rest =>
    let ll := pyLower line
    if containsAny product_keywords ll then
      if !containsAny exclude_phrases ll then
        if 5 < line.length ∧ line.length < 100 then some line
        else strat1 rest
      else strat1 rest
    else strat1 rest

/-- The trigger phrases of Strategy 2 (`src/main.py` line 52). -/
def trigger_phrases : List Str :=
  ["was evaluated".data, "tested for".data, "test results".data]

/-- Worker for Strategy 2: the loop reads `lines[i-1]` under the guard
`i > 0`; since `i` counts the iterations of `enumerate(lines)`,
`lines[i-1]` is the previously visited line, carried here as the
accumulator `prev`. -/
def strat2Go : Str → List Str → Option Str
  | _, [] => none
  | prev, line :: rest =>
    if containsAny trigger_phrases (pyLower line) then
      if 5 < prev.length then some prev
      else strat2Go line rest
    else strat2Go line rest

/-- Strategy 2 of `extract_product_name` (`src/main.py` lines 51-59):
find a line containing a trigger phrase at an index `i > 0` and return
the preceding line when its length exceeds 5; otherwise keep looking.
At index 0 the guard `i > 0` fails, so iteration starts at index 1. -/
def strat2 : List Str → Option Str
  | [] => none
  | first :: rest => strat2Go first rest

/-- The regex word class `\w` restricted to ASCII: letters, digits and
underscore.  Word boundaries `\b` are transitions between `\w` and
non-`\w` (or a string end). -/
def wordChar (c : Char) : Bool :=
  decide (97 ≤ c.toNat ∧ c.toNat ≤ 122) ||
  decide (65 ≤ c.toNat ∧ c.toNat ≤ 90) ||
  decide (48 ≤ c.toNat ∧ c.toNat ≤ 57) ||
  decide (c.toNat = 95)

/-- The word `w` (given in lowercase) matches case-insensitively at the
head of `s`, with a word boundary on each side; `prevC` is the character
just before this position, if any. -/
def hasWordAt (w : Str) (prevC : Option Char) (s : Str) : Bool :=
  (pyLower (s.take w.length) == w) &&
  prevC.all (fun c => !wordChar c) &&
  (s.drop w.length).head?.all (fun c => !wordChar c)

/-- Scan `s` left to right for a whole-word case-insensitive match of
`w`, tracking the preceding character for the left boundary. -/
def searchWord (w : Str) : Option Char → Str → Bool
  | prevC, [] => hasWordAt w prevC []
  | prevC, c :: rest => hasWordAt w prevC (c :: rest) || searchWord w (some c) rest

/-- Python `re.search(r'\bby\b|\bfrom\b', line, re.IGNORECASE)`
(as a Boolean: did the search succeed), restricted to the ASCII word
class as discussed in the header. -/
def regexSearchByFrom (line : Str) : Bool :=
  searchWord "by".data none line || searchWord "from".data none line

/-- Strategy 3 of `extract_product_name` (`src/main.py` lines 63-66):
return the first line containing `by` or `from` as a whole word whose
length is strictly between 5 and 100. -/
def strat3 : List Str → Option Str
  | [] => none
  | line :: rest =>
    if regexSearchByFrom line then
      if 5 < line.length ∧ line.length < 100 then some line
      else strat3 rest
    else strat3 rest

/-- The header words excluded by Strategy 4 (`src/main.py` line 72). -/
def header_words : List Str :=
  ["report".data, "test".data, "analysis".data, "certificate".data]

/-- Strategy 4 of `extract_product_name` (`src/main.py` lines 69-73):
return the first line of length strictly between 10 and 100 whose
lowercase form contains no header word. -/
def strat4 : List Str → Option Str
  | [] => none
  | line :: rest =>
    if 10 < line.length ∧ line.length < 100 then
      if !containsAny header_words (pyLower line) then some line
      else strat4 rest
    else strat4 rest

/-- `extract_product_name` from `src/main.py` lines 27-75: split the
text into trimmed non-empty lines, then try the four strategies in
order; the first `return` encountered wins, and `None` is returned when
all four loops fall through. -/
def extract_product_name (text : Str) : Option Str :=
  let lines := pyLines text
  match strat1 lines with
  | some r => some r
  | none =>
    match strat2 lines with
    | some r => some r
    | none =>
      match strat3 lines with
      | some r => some r
      | none => strat4 lines

/-! ### Character-level facts -/

/-- A character of the allowed class is not Python whitespace. -/
theorem not_space_of_allowed (c : Char) (h : allowedChar c = true) :
    pyIsSpace c = false := by
  simp only [allowedChar, Bool.or_eq_true, decide_eq_true_eq] at h
  simp only [pyIsSpace, decide_eq_false_iff_not, List.mem_cons, List.not_mem_nil,
    or_false]
  omega

/-- A character of the allowed class is not a newline. -/
theorem ne_nl_of_allowed (c : Char) (h : allowedChar c = true) :
    (c == '\n') = false := by
  rw [beq_eq_false_iff_ne]
  intro hEq
  subst hEq
  exact absurd h (by decide)

/-! ### The no-consecutive-underscores predicate -/

/-- No two consecutive characters of `s` are both underscores. -/
def noDoubleU : Str → Bool
  | [] => true
  | [_] => true
  | c :: d :: rest => !(c == '_' && d == '_') && noDoubleU (d :: rest)

theorem noDoubleU_tail (c : Char) (s : Str) (h : noDoubleU (c :: s) = true) :
    noDoubleU s = true := by
  cases s with
  | nil => rfl
  | cons d rest => simp only [noDoubleU, Bool.and_eq_true] at h; exact h.2

theorem noDoubleU_cons (c : Char) (s : Str) (hs : noDoubleU s = true)
    (hhead : ∀ d, s.head? = some d → ¬(c = '_' ∧ d = '_')) :
    noDoubleU (c :: s) = true := by
  cases s with
  | nil => rfl
  | cons d rest =>
    simp only [noDoubleU, Bool.and_eq_true, Bool.not_eq_true', Bool.and_eq_false_iff]
    refine ⟨?_, hs⟩
    have hcd := hhead d rfl
    rcases Decidable.em (c = '_') with hc | hc
    · right; rw [beq_eq_false_iff_ne]; exact fun hd => hcd ⟨hc, hd⟩
    · left; rw [beq_eq_false_iff_ne]; exact hc

theorem noDoubleU_head (c : Char) (s : Str) (h : noDoubleU (c :: s) = true)
    (hc : c = '_') : s.head? ≠ some '_' := by
  cases s with
  | nil => simp
  | cons d rest =>
    simp only [noDoubleU, Bool.and_eq_true, Bool.not_eq_true', Bool.and_eq_false_iff] at h
    intro hd
    simp only [List.head?_cons, Option.some.injEq] at hd
    rcases h.1 with h1 | h1 <;> rw [beq_eq_false_iff_ne] at h1
    · exact h1 hc
    · exact h1 hd

theorem noDoubleU_append_left (l r : Str) (h : noDoubleU (l ++ r) = true) :
    noDoubleU l = true := by
  induction l with
  | nil => rfl
  | cons c t ih =>
    cases t with
    | nil => rfl
    | cons d t' =>
      simp only [List.cons_append, noDoubleU, Bool.and_eq_true] at h ⊢
      exact ⟨h.1, ih (by simpa using h.2)⟩

theorem noDoubleU_append_right (l r : Str) (h : noDoubleU (l ++ r) = true) :
    noDoubleU r = true := by
  induction l with
  | nil => simpa using h
  | cons c t ih => exact ih (noDoubleU_tail c (t ++ r) (by simpa using h))

theorem noDoubleU_infix (l₁ l₂ : Str) (h : l₁ <:+: l₂)
    (h₂ : noDoubleU l₂ = true) : noDoubleU l₁ = true := by
  obtain ⟨pre, post, rfl⟩ := h
  exact noDoubleU_append_right pre l₁ (noDoubleU_append_left (pre ++ l₁) post h₂)

theorem noDoubleU_take (l : Str) (n : Nat) (h : noDoubleU l = true) :
    noDoubleU (l.take n) = true :=
  noDoubleU_append_left _ _ (by rw [List.take_append_drop]; exact h)

/-! ### Facts about the underscore-collapsing pass -/

theorem collapseAux_sublist (s : Str) : ∀ b, (collapseAux b s).Sublist s := by
  induction s with
  | nil => intro b; simp [collapseAux]
  | cons c rest ih =>
    intro b
    cases hc : c == '_'
    · simpa [collapseAux, hc] using (ih false).cons₂ c
    · have hcEq : c = '_' := by rwa [beq_iff_eq] at hc
      cases b
      · simp only [collapseAux, hc, if_true]
        subst hcEq
        simpa using (ih true).cons₂ '_'
      · simp only [collapseAux, hc, if_true]
        exact (ih true).cons c

theorem collapseAux_true_head (s : Str) :
    (collapseAux true s).head? ≠ some '_' := by
  induction s with
  | nil => simp [collapseAux]
  | cons c rest ih =>
    cases hc : c == '_'
    · simp only [collapseAux, hc, List.head?_cons, ne_eq, Option.some.injEq,
        Bool.false_eq_true, if_false]
      rw [beq_eq_false_iff_ne] at hc
      exact hc
    · simpa [collapseAux, hc] using ih

theorem noDoubleU_collapseAux (s : Str) : ∀ b, noDoubleU (collapseAux b s) = true := by
  induction s with
  | nil => intro b; rfl
  | cons c rest ih =>
    intro b
    cases hc : c == '_'
    · simp only [collapseAux, hc, Bool.false_eq_true, if_false]
      refine noDoubleU_cons _ _ (ih false) ?_
      intro d _ hcontra
      rw [beq_eq_false_iff_ne] at hc
      exact hc hcontra.1
    · cases b
      · simp only [collapseAux, hc, if_true, Bool.false_eq_true, if_false]
        refine noDoubleU_cons _ _ (ih true) ?_
        intro d hd hcontra
        exact collapseAux_true_head rest (by rw [hd, hcontra.2])
      · simpa [collapseAux, hc] using ih true

theorem collapseAux_id (s : Str) (h : noDoubleU s = true) :
    collapseAux false s = s ∧ (s.head? ≠ some '_' → collapseAux true s = s) := by
  induction s with
  | nil => exact ⟨rfl, fun _ => rfl⟩
  | cons c rest ih =>
    obtain ⟨ih1, ih2⟩ := ih (noDoubleU_tail c rest h)
    cases hc : c == '_'
    · have hcNe : c ≠ '_' := by rwa [beq_eq_false_iff_ne] at hc
      constructor
      · simp [collapseAux, hc, ih1]
      · intro _
        simp [collapseAux, hc, ih1]
    · have hcEq : c = '_' := by rwa [beq_iff_eq] at hc
      have hr : rest.head? ≠ some '_' := noDoubleU_head c rest h hcEq
      constructor
      · simp only [collapseAux, hc, if_true, Bool.false_eq_true, if_false]
        rw [ih2 hr, hcEq]
      · intro hhead
        exact absurd (by rw [hcEq]; rfl : (c :: rest).head? = some '_') hhead

/-! ### Facts about the stripping passes -/

theorem head?_dropWhile_not (p : Char → Bool) (l : Str) (c : Char)
    (h : (l.dropWhile p).head? = some c) : p c = false := by
  induction l with
  | nil => simp at h
  | cons a t ih =>
    rw [List.dropWhile_cons] at h
    by_cases ha : p a = true
    · rw [if_pos ha] at h
      exact ih h
    · rw [if_neg ha] at h
      simp only [List.head?_cons, Option.some.injEq] at h
      subst h
      exact Bool.not_eq_true _ ▸ Bool.of_not_eq_true ha

theorem rstripBy_append (p : Char → Bool) (t : Str) :
    ∃ post, rstripBy p t ++ post = t := by
  obtain ⟨u, hu⟩ : t.reverse.dropWhile p <:+ t.reverse := List.dropWhile_suffix p
  refine ⟨u.reverse, ?_⟩
  have := congrArg List.reverse hu
  simpa [List.reverse_append] using this

theorem stripBy_head (p : Char → Bool) (s : Str) (c : Char)
    (h : (stripBy p s).head? = some c) : p c = false := by
  obtain ⟨post, hpost⟩ := rstripBy_append p (lstripBy p s)
  apply head?_dropWhile_not p s c
  show (lstripBy p s).head? = some c
  rw [← hpost]
  cases hr : rstripBy p (lstripBy p s) with
  | nil => rw [stripBy, hr] at h; simp at h
  | cons a u =>
    rw [stripBy, hr] at h
    simp only [List.head?_cons, Option.some.injEq] at h
    subst h
    rfl

theorem stripBy_last (p : Char → Bool) (s : Str) (c : Char)
    (h : (stripBy p s).getLast? = some c) : p c = false := by
  apply head?_dropWhile_not p (lstripBy p s).reverse c
  rw [← List.head?_reverse] at h
  have h2 : ((lstripBy p s).reverse.dropWhile p).reverse.reverse.head? = some c := h
  rwa [List.reverse_reverse] at h2

theorem stripBy_isInf (p : Char → Bool) (s : Str) : stripBy p s <:+: s := by
  obtain ⟨pre, hpre⟩ : lstripBy p s <:+ s := List.dropWhile_suffix p
  obtain ⟨post, hpost⟩ := rstripBy_append p (lstripBy p s)
  refine ⟨pre, post, ?_⟩
  show pre ++ stripBy p s ++ post = s
  rw [List.append_assoc]
  show pre ++ (rstripBy p (lstripBy p s) ++ post) = s
  rw [hpost, hpre]

theorem mem_of_stripBy (p : Char → Bool) (s : Str) (c : Char)
    (h : c ∈ stripBy p s) : c ∈ s :=
  (stripBy_isInf p s).sublist.mem h

theorem length_stripBy_le (p : Char → Bool) (s : Str) :
    (stripBy p s).length ≤ s.length :=
  (stripBy_isInf p s).sublist.length_le

theorem noDoubleU_stripBy (p : Char → Bool) (s : Str) (h : noDoubleU s = true) :
    noDoubleU (stripBy p s) = true :=
  noDoubleU_infix _ _ (stripBy_isInf p s) h

theorem dropWhile_eq_self_of (p : Char → Bool) (l : Str)
    (h : ∀ c, l.head? = some c → p c = false) : l.dropWhile p = l := by
  cases l with
  | nil => rfl
  | cons a t => rw [List.dropWhile_cons, if_neg (by rw [h a rfl]; simp)]

theorem stripBy_eq_self (p : Char → Bool) (l : Str)
    (hh : ∀ c, l.head? = some c → p c = false)
    (hl : ∀ c, l.getLast? = some c → p c = false) : stripBy p l = l := by
  have h1 : lstripBy p l = l := dropWhile_eq_self_of p l hh
  show rstripBy p (lstripBy p l) = l
  rw [h1, rstripBy, dropWhile_eq_self_of p l.reverse
    (fun c hc => hl c (by rwa [List.head?_reverse] at hc)), List.reverse_reverse]

theorem map_eq_self_of (f : Char → Char) (l : Str)
    (h : ∀ c ∈ l, f c = c) : l.map f = l := by
  induction l with
  | nil => rfl
  | cons a t ih =>
    have h1 : f a = a := h a (List.mem_cons_self a t)
    have h2 : List.map f t = t := ih (fun c hc => h c (List.mem_cons_of_mem a hc))
    simp [h1, h2]

theorem mem_of_getLast? (l : Str) (c : Char) (h : l.getLast? = some c) : c ∈ l := by
  rw [← List.head?_reverse] at h
  have : c ∈ l.reverse := by
    cases hr : l.reverse with
    | nil => rw [hr] at h; simp at h
    | cons a t =>
      rw [hr] at h
      simp only [List.head?_cons, Option.some.injEq] at h
      subst h
      exact List.mem_cons_self a t
  simpa using this

theorem mem_of_head? (l : Str) (c : Char) (h : l.head? = some c) : c ∈ l := by
  cases l with
  | nil => simp at h
  | cons a t =>
    simp only [List.head?_cons, Option.some.injEq] at h
    subst h
    exact List.mem_cons_self a t

/-! ### Invariants of the sanitizer output -/

theorem sanitizeChars_allowed (s : Str) :
    ∀ c ∈ sanitizeChars s, allowedChar c = true := by
  intro c hc
  obtain ⟨a, _, ha⟩ := List.mem_map.mp hc
  by_cases h : allowedChar a = true
  · rw [if_pos h] at ha; exact ha ▸ h
  · rw [if_neg h] at ha; rw [← ha]; decide

theorem clean_text_chars (s : Str) : ∀ c ∈ clean_text s, allowedChar c = true := by
  intro c hc
  have h1 : c ∈ pyStripUnderscores (collapseUnderscores (sanitizeChars
      (replaceNlBySpace (pyStrip s)))) := (List.take_sublist _ _).mem hc
  have h2 : c ∈ collapseUnderscores (sanitizeChars (replaceNlBySpace (pyStrip s))) :=
    mem_of_stripBy _ _ _ h1
  have h3 : c ∈ sanitizeChars (replaceNlBySpace (pyStrip s)) :=
    (collapseAux_sublist _ false).mem h2
  exact sanitizeChars_allowed _ c h3

theorem clean_text_noDoubleU (s : Str) : noDoubleU (clean_text s) = true :=
  noDoubleU_take _ 80 (noDoubleU_stripBy _ _ (noDoubleU_collapseAux _ false))

theorem head?_take80 (l : Str) : (l.take 80).head? = l.head? := by
  cases l with
  | nil => rfl
  | cons a t => rfl

theorem clean_text_head (s : Str) : (clean_text s).head? ≠ some '_' := by
  intro h
  rw [clean_text, head?_take80] at h
  have := stripBy_head _ _ _ h
  simp at this

theorem clean_text_length_le (s : Str) : (clean_text s).length ≤ 80 :=
  List.length_take_le 80 _

theorem clean_text_eq_of_short (s : Str) (h : s.length ≤ 80) :
    clean_text s = pyStripUnderscores (collapseUnderscores (sanitizeChars
      (replaceNlBySpace (pyStrip s)))) := by
  apply List.take_of_length_le
  calc (pyStripUnderscores (collapseUnderscores (sanitizeChars
      (replaceNlBySpace (pyStrip s))))).length
      ≤ (collapseUnderscores (sanitizeChars (replaceNlBySpace (pyStrip s)))).length :=
        length_stripBy_le _ _
    _ ≤ (sanitizeChars (replaceNlBySpace (pyStrip s))).length :=
        (collapseAux_sublist _ false).length_le
    _ = (pyStrip s).length := by simp [sanitizeChars, replaceNlBySpace]
    _ ≤ s.length := length_stripBy_le _ _
    _ ≤ 80 := h

theorem clean_text_last (s : Str) (h : s.length ≤ 80) :
    (clean_text s).getLast? ≠ some '_' := by
  intro hlast
  rw [clean_text_eq_of_short s h] at hlast
  have := stripBy_last _ _ _ hlast
  simp at this

/-! ### The sanitizer fixes its own output -/

theorem clean_text_fix (r : Str)
    (hchars : ∀ c ∈ r, allowedChar c = true)
    (hnd : noDoubleU r = true)
    (hhead : r.head? ≠ some '_')
    (hlast : r.getLast? ≠ some '_')
    (hlen : r.length ≤ 80) : clean_text r = r := by
  have hstrip : pyStrip r = r :=
    stripBy_eq_self _ _
      (fun c hc => not_space_of_allowed c (hchars c (mem_of_head? r c hc)))
      (fun c hc => not_space_of_allowed c (hchars c (mem_of_getLast? r c hc)))
  have hnl : replaceNlBySpace r = r :=
    map_eq_self_of _ _ (fun c hc => by rw [ne_nl_of_allowed c (hchars c hc)]; simp)
  have hsan : sanitizeChars r = r :=
    map_eq_self_of _ _ (fun c hc => by rw [if_pos (hchars c hc)])
  have hcol : collapseUnderscores r = r := (collapseAux_id r hnd).1
  have hstripU : pyStripUnderscores r = r := by
    apply stripBy_eq_self
    · intro c hc
      rw [beq_eq_false_iff_ne]
      intro hEq
      exact hhead (by rw [← hEq]; exact hc)
    · intro c hc
      rw [beq_eq_false_iff_ne]
      intro hEq
      exact hlast (by rw [← hEq]; exact hc)
  rw [clean_text, hstrip, hnl, hsan]
  show (pyStripUnderscores (collapseUnderscores r)).take 80 = r
  rw [hcol, hstripU]
  exact List.take_of_length_le hlen

/-! ### The spec's sanitization pipeline, stated independently -/

/-- Spec step 1: strip leading/trailing whitespace. -/
def specStripWs (s : Str) : Str :=
  ((s.dropWhile pyIsSpace).reverse.dropWhile pyIsSpace).reverse

/-- Spec step 2: replace every newline with a single space. -/
def specNlToSpace (s : Str) : Str := s.map (fun c => if c == '\n' then ' ' else c)

/-- Spec step 3: replace every character not in the allowed set with an
underscore. -/
def specSanitize (s : Str) : Str := s.map (fun c => if allowedChar c then c else '_')

/-- Spec step 4: collapse every maximal run of consecutive underscores
into one underscore, here by dropping each underscore that is directly
followed by another. -/
def specCollapse : Str → Str
  | [] => []
  | [c] => [c]
  | c :: d :: rest =>
    if c == '_' && d == '_' then specCollapse (d :: rest)
    else c :: specCollapse (d :: rest)

/-- Spec step 5: strip leading and trailing underscores. -/
def specStripUnders (s : Str) : Str :=
  ((s.dropWhile (fun c => c == '_')).reverse.dropWhile (fun c => c == '_')).reverse

/-- Spec step 6: truncate to at most 80 characters (by codepoint). -/
def specTruncate80 (s : Str) : Str := s.take 80

theorem collapse_eq_spec (s : Str) :
    collapseAux false s = specCollapse s ∧
    '_' :: collapseAux true s = specCollapse ('_' :: s) := by
  induction s with
  | nil => exact ⟨rfl, rfl⟩
  | cons c r ih =>
    obtain ⟨ih1, ih2⟩ := ih
    cases hc : c == '_'
    · have hfalse : collapseAux false (c :: r) = c :: collapseAux false r := by
        simp [collapseAux, hc]
      have h1 : collapseAux false (c :: r) = specCollapse (c :: r) := by
        rw [hfalse, ih1]
        cases r with
        | nil => rfl
        | cons d r2 =>
          show c :: specCollapse (d :: r2) = specCollapse (c :: d :: r2)
          rw [specCollapse.eq_3, if_neg (by simp [hc])]
      refine ⟨h1, ?_⟩
      have htrue : collapseAux true (c :: r) = c :: collapseAux false r := by
        simp [collapseAux, hc]
      rw [htrue, ← hfalse, h1, specCollapse.eq_3, if_neg (by simp [hc])]
    · have hcEq : c = '_' := by rwa [beq_iff_eq] at hc
      subst hcEq
      have h1 : collapseAux false ('_' :: r) = specCollapse ('_' :: r) := by
        have : collapseAux false ('_' :: r) = '_' :: collapseAux true r := by
          simp [collapseAux]
        rw [this, ih2]
      refine ⟨h1, ?_⟩
      have : collapseAux true ('_' :: r) = collapseAux true r := by
        simp [collapseAux]
      rw [this, ih2]
      exact (by rw [specCollapse.eq_3, if_pos (by decide)] :
        specCollapse ('_' :: '_' :: r) = specCollapse ('_' :: r)).symm

theorem collapseUnderscores_eq_spec (s : Str) :
    collapseUnderscores s = specCollapse s := (collapse_eq_spec s).1

/-- C4: `clean_text` equals the spec's six-step pipeline applied in
order: strip whitespace, newline to space, out-of-class characters to
underscore, collapse underscore runs, strip underscores, truncate to
80 characters. -/
theorem claim_C4 (s : Str) :
    clean_text s = specTruncate80 (specStripUnders (specCollapse (specSanitize
      (specNlToSpace (specStripWs s))))) := by
  rw [← collapseUnderscores_eq_spec]
  rfl

/-- C1 as amended: the sanitizer output has length at most 80, uses only
the characters `[a-zA-Z0-9_&-]`, has no two consecutive underscores and
no leading underscore; it also has no trailing underscore whenever the
input is at most 80 characters long (truncation can expose one). -/
theorem claim_C1 (s : Str) :
    (clean_text s).length ≤ 80 ∧
    (∀ c ∈ clean_text s, allowedChar c = true) ∧
    noDoubleU (clean_text s) = true ∧
    (clean_text s).head? ≠ some '_' ∧
    (s.length ≤ 80 → (clean_text s).getLast? ≠ some '_') :=
  ⟨clean_text_length_le s, clean_text_chars s, clean_text_noDoubleU s,
   clean_text_head s, fun h => clean_text_last s h⟩

/-- C1 as stated is false: on the 81-character input of 79 `a`s followed
by a space and a `b`, `clean_text` returns 79 `a`s followed by an
underscore — the truncation `text[:80]` runs after the underscore strip,
so the output ends in an underscore. -/
theorem claim_C1_counterexample :
    (clean_text (List.replicate 79 'a' ++ [' ', 'b'])).getLast? = some '_' := by
  decide

theorem claim_C1_witness :
    ("ab cd".data : Str).length ≤ 80 ∧
    (clean_text "ab cd".data).getLast? ≠ some '_' :=
  ⟨by decide, (claim_C1 "ab cd".data).2.2.2.2 (by decide)⟩

/-- C8: the sanitizer is idempotent on inputs of length at most 80. -/
theorem claim_C8 (s : Str) (h : s.length ≤ 80) :
    clean_text (clean_text s) = clean_text s :=
  clean_text_fix (clean_text s) (clean_text_chars s) (clean_text_noDoubleU s)
    (clean_text_head s) (clean_text_last s h) (clean_text_length_le s)

theorem claim_C8_witness :
    ("  Glow Oil! ".data : Str).length ≤ 80 ∧
    clean_text (clean_text "  Glow Oil! ".data) = clean_text "  Glow Oil! ".data :=
  ⟨by decide, claim_C8 "  Glow Oil! ".data (by decide)⟩

/-! ### Characterizations of the four strategies -/

/-- The selection predicate of Strategy 1, as the spec states it:
keyword present, no exclusion phrase, length strictly between 5 and 100. -/
def keywordLinePred (line : Str) : Bool :=
  containsAny product_keywords (pyLower line) &&
  !containsAny exclude_phrases (pyLower line) &&
  decide (5 < line.length ∧ line.length < 100)

theorem strat1_eq_find (ls : List Str) : strat1 ls = ls.find? keywordLinePred := by
  induction ls with
  | nil => rfl
  | cons line rest ih =>
    rw [List.find?_cons]
    cases h1 : containsAny product_keywords (pyLower line)
    · simp [strat1, keywordLinePred, h1, ih]
    · cases h2 : containsAny exclude_phrases (pyLower line)
      · by_cases h3 : 5 < line.length ∧ line.length < 100
        · simp [strat1, keywordLinePred, h1, h2, h3]
        · simp [strat1, keywordLinePred, h1, h2, h3, ih]
      · simp [strat1, keywordLinePred, h1, h2, ih]

/-- The selection of Strategy 2, as the spec states it: the first pair
of adjacent lines whose second member contains a trigger phrase and
whose first member is longer than 5 characters; its first member is
returned.  Pairing `lines` with its tail realizes the spec's indexing
(`i > 0`, preceding line `i-1`). -/
def strat2spec (lines : List Str) : Option Str :=
  ((lines.zip lines.tail).find? (fun pr =>
    containsAny trigger_phrases (pyLower pr.2) && decide (5 < pr.1.length))).map
    Prod.fst

theorem strat2Go_eq (rest : List Str) : ∀ prev, strat2Go prev rest =
    (((prev :: rest).zip rest).find? (fun pr =>
      containsAny trigger_phrases (pyLower pr.2) && decide (5 < pr.1.length))).map
      Prod.fst := by
  induction rest with
  | nil => intro prev; rfl
  | cons line r2 ih =>
    intro prev
    rw [List.zip_cons_cons, List.find?_cons]
    cases h1 : containsAny trigger_phrases (pyLower line)
    · simp [strat2Go, h1, ih line]
    · by_cases h2 : 5 < prev.length
      · simp [strat2Go, h1, h2]
      · simp [strat2Go, h1, h2, ih line]

theorem strat2_eq_spec (ls : List Str) : strat2 ls = strat2spec ls := by
  cases ls with
  | nil => rfl
  | cons first rest =>
    show strat2Go first rest = _
    rw [strat2Go_eq rest first]
    rfl

/-- The selection predicate of Strategy 3: a whole-word `by` or `from`
and length strictly between 5 and 100. -/
def byFromLinePred (line : Str) : Bool :=
  regexSearchByFrom line && decide (5 < line.length ∧ line.length < 100)

theorem strat3_eq_find (ls : List Str) : strat3 ls = ls.find? byFromLinePred := by
  induction ls with
  | nil => rfl
  | cons line rest ih =>
    rw [List.find?_cons]
    cases h1 : regexSearchByFrom line
    · simp [strat3, byFromLinePred, h1, ih]
    · by_cases h2 : 5 < line.length ∧ line.length < 100
      · simp [strat3, byFromLinePred, h1, h2]
      · simp [strat3, byFromLinePred, h1, h2, ih]

/-- The selection predicate of Strategy 4: length strictly between 10
and 100 and no header word in the lowercase form. -/
def fallbackLinePred (line : Str) : Bool :=
  decide (10 < line.length ∧ line.length < 100) &&
  !containsAny header_words (pyLower line)

theorem strat4_eq_find (ls : List Str) : strat4 ls = ls.find? fallbackLinePred := by
  induction ls with
  | nil => rfl
  | cons line rest ih =>
    rw [List.find?_cons]
    by_cases h1 : 10 < line.length ∧ line.length < 100
    · cases h2 : containsAny header_words (pyLower line)
      · simp [strat4, fallbackLinePred, h1, h2]
      · simp [strat4, fallbackLinePred, h1, h2, ih]
    · simp [strat4, fallbackLinePred, h1, ih]

/-! ### How the strategies compose in `extract_product_name` -/

theorem extract_of_strat1 (text : Str) (r : Str)
    (h : strat1 (pyLines text) = some r) : extract_product_name text = some r := by
  simp [extract_product_name, h]

theorem extract_of_strat3 (text : Str) (r : Str)
    (h1 : strat1 (pyLines text) = none) (h2 : strat2 (pyLines text) = none)
    (h3 : strat3 (pyLines text) = some r) : extract_product_name text = some r := by
  simp [extract_product_name, h1, h2, h3]

/-! ### Membership of every result in the line list -/

theorem strat1_mem (ls : List Str) (l : Str) (h : strat1 ls = some l) : l ∈ ls := by
  rw [strat1_eq_find] at h
  exact List.mem_of_find?_eq_some h

theorem strat2_mem (ls : List Str) (l : Str) (h : strat2 ls = some l) : l ∈ ls := by
  rw [strat2_eq_spec] at h
  simp only [strat2spec, Option.map_eq_some'] at h
  obtain ⟨pr, hfind, heq⟩ := h
  have hm := List.of_mem_zip (List.mem_of_find?_eq_some hfind)
  rw [← heq]
  exact hm.1

theorem strat3_mem (ls : List Str) (l : Str) (h : strat3 ls = some l) : l ∈ ls := by
  rw [strat3_eq_find] at h
  exact List.mem_of_find?_eq_some h

theorem strat4_mem (ls : List Str) (l : Str) (h : strat4 ls = some l) : l ∈ ls := by
  rw [strat4_eq_find] at h
  exact List.mem_of_find?_eq_some h

theorem extract_mem (text : Str) (l : Str)
    (h : extract_product_name text = some l) : l ∈ pyLines text := by
  simp only [extract_product_name] at h
  cases h1 : strat1 (pyLines text) with
  | some r =>
    rw [h1] at h
    simp only [Option.some.injEq] at h
    exact h ▸ strat1_mem _ _ h1
  | none =>
    rw [h1] at h
    cases h2 : strat2 (pyLines text) with
    | some r =>
      rw [h2] at h
      simp only [Option.some.injEq] at h
      exact h ▸ strat2_mem _ _ h2
    | none =>
      rw [h2] at h
      cases h3 : strat3 (pyLines text) with
      | some r =>
        rw [h3] at h
        simp only [Option.some.injEq] at h
        exact h ▸ strat3_mem _ _ h3
      | none =>
        rw [h3] at h
        exact strat4_mem _ _ h

/-! ### Claims about the extractor -/

/-- C2: the four strategies are tried in strict order, so whenever
Strategy 1 selects a line, `extract_product_name` returns it no matter
what the later strategies would say; in particular the input holding
both a keyword line and a trigger pair returns the Strategy 1 line. -/
theorem claim_C2 :
    (∀ text r, strat1 (pyLines text) = some r →
      extract_product_name text = some r) ∧
    extract_product_name "Vitamin C Serum\nBrand X Serum was evaluated".data =
      some "Vitamin C Serum".data := by
  refine ⟨extract_of_strat1, ?_⟩
  decide

theorem claim_C2_witness :
    extract_product_name "Rose Oil Blend\nExtra".data = some "Rose Oil Blend".data :=
  claim_C2.1 "Rose Oil Blend\nExtra".data "Rose Oil Blend".data (by decide)

/-- C3: Strategy 1 returns exactly the first line satisfying the
keyword/no-exclusion/length predicate; an excluded keyword line is
skipped within the strategy, as the lone-line example shows. -/
theorem claim_C3 :
    (∀ ls, strat1 ls = ls.find? keywordLinePred) ∧
    strat1 (pyLines "Serum Ingredients Description".data) = none := by
  refine ⟨strat1_eq_find, ?_⟩
  decide

/-- C5: when Strategy 1 fails, the first adjacent pair whose second
line contains a trigger phrase and whose first line is longer than 5
characters decides the result: the preceding line is returned. -/
theorem claim_C5 (text : Str) (p : Str)
    (h1 : strat1 (pyLines text) = none)
    (h2 : strat2spec (pyLines text) = some p) :
    extract_product_name text = some p := by
  have h2m : strat2 (pyLines text) = some p := by
    rw [strat2_eq_spec]
    exact h2
  simp [extract_product_name, h1, h2m]

theorem claim_C5_witness :
    extract_product_name "Brandname Alpha\nIt was evaluated in a lab".data =
      some "Brandname Alpha".data :=
  claim_C5 "Brandname Alpha\nIt was evaluated in a lab".data
    "Brandname Alpha".data (by decide) (by decide)

/-- C6: Strategy 3 returns the first line containing `by` or `from` as
a whole word with length strictly between 5 and 100, and is reached only
when Strategies 1 and 2 fail; `Bystander` has no whole-word `by`, while
the single line `Night Repair by Luna` is returned in full. -/
theorem claim_C6 :
    (∀ ls, strat3 ls = ls.find? byFromLinePred) ∧
    (∀ text r, strat1 (pyLines text) = none → strat2 (pyLines text) = none →
      strat3 (pyLines text) = some r → extract_product_name text = some r) ∧
    strat3 (pyLines "Bystander Corp Products".data) = none ∧
    extract_product_name "Night Repair by Luna".data =
      some "Night Repair by Luna".data := by
  refine ⟨strat3_eq_find, extract_of_strat3, by decide, by decide⟩

theorem claim_C6_witness :
    extract_product_name "Moon Dust from Stars".data =
      some "Moon Dust from Stars".data :=
  claim_C6.2.1 "Moon Dust from Stars".data "Moon Dust from Stars".data
    (by decide) (by decide) (by decide)

/-- C7: the extractor is total, and its result is always one of the
trimmed non-empty lines or the absence value; the empty and
whitespace-only inputs return the absence value. -/
theorem claim_C7 :
    (∀ text l, extract_product_name text = some l → l ∈ pyLines text) ∧
    extract_product_name "".data = none ∧
    extract_product_name "   \n\n  ".data = none := by
  refine ⟨extract_mem, by decide, by decide⟩

theorem claim_C7_witness :
    "Vitamin C Serum".data ∈ pyLines "Vitamin C Serum".data :=
  claim_C7.1 "Vitamin C Serum".data "Vitamin C Serum".data (by decide)

/-- C9: when Strategies 1-3 fail, the result is exactly the first line
of length strictly between 10 and 100 with no header word — the absence
value when no such line exists. -/
theorem claim_C9 (text : Str)
    (h1 : strat1 (pyLines text) = none)
    (h2 : strat2 (pyLines text) = none)
    (h3 : strat3 (pyLines text) = none) :
    extract_product_name text = (pyLines text).find? fallbackLinePred := by
  rw [← strat4_eq_find]
  simp [extract_product_name, h1, h2, h3]

theorem claim_C9_witness :
    extract_product_name "Hello wonderful world".data =
      (pyLines "Hello wonderful world".data).find? fallbackLinePred :=
  claim_C9 "Hello wonderful world".data (by decide) (by decide) (by decide)

/-! ### The second copy of the core, from `src/app.py`

`src/app.py` lines 19-62 contain a character-identical copy of the two
functions.  The streamlit file's copies are embedded here separately;
the models of the Python builtins and of the `re` module (whose pattern
literals are the same in both files) are shared. -/

namespace App

/-- `clean_text` from `src/app.py` lines 19-25. -/
def clean_text (text : Str) : Str :=
  (pyStripUnderscores (collapseUnderscores (sanitizeChars
    (replaceNlBySpace (pyStrip text))))).take 80

/-- The line preprocessing of `src/app.py` line 29. -/
def pyLines (text : Str) : List Str :=
  ((splitNl text).map pyStrip).filter (fun l => !l.isEmpty)

/-- The keyword list of `src/app.py` lines 31-33. -/
def product_keywords : List Str :=
  ["oil".data, "serum".data, "cream".data, "foundation".data, "lotion".data,
   "gel".data, "moisturizer".data, "cleanser".data, "toner".data,
   "essence".data, "mask".data, "balm".data, "primer".data, "powder".data,
   "lipstick".data, "mascara".data]

/-- The exclusion phrases of `src/app.py` lines 38-39. -/
def exclude_phrases : List Str :=
  ["was evaluated".data, "tested".data, "description".data,
   "ingredients".data, "how to use".data, "directions".data,
   "warning".data, "caution".data]

/-- Strategy 1 of `src/app.py` lines 35-42. -/
def strat1 : List Str → Option Str
  | [] => none
  | line :: rest =>
    let ll := pyLower line
    if containsAny product_keywords ll then
      if !containsAny exclude_phrases ll then
        if 5 < line.length ∧ line.length < 100 then some line
        else strat1 rest
      else strat1 rest
    else strat1 rest

/-- The trigger phrases of `src/app.py` line 44. -/
def trigger_phrases : List Str :=
  ["was evaluated".data, "tested for".data, "test results".data]

/-- Worker for Strategy 2 of `src/app.py` lines 45-50, with the
previously visited line carried as in the `src/main.py` embedding. -/
def strat2Go : Str → List Str → Option Str
  | _, [] => none
  | prev, line :: rest =>
    if containsAny trigger_phrases (pyLower line) then
      if 5 < prev.length then some prev
      else strat2Go line rest
    else strat2Go line rest

/-- Strategy 2 of `src/app.py` lines 44-50. -/
def strat2 : List Str → Option Str
  | [] => none
  | first :: rest => strat2Go first rest

/-- Strategy 3 of `src/app.py` lines 52-55. -/
def strat3 : List Str → Option Str
  | [] => none
  | line :: rest =>
    if regexSearchByFrom line then
      if 5 < line.length ∧ line.length < 100 then some line
      else strat3 rest
    else strat3 rest

/-- The header words of `src/app.py` line 59. -/
def header_words : List Str :=
  ["report".data, "test".data, "analysis".data, "certificate".data]

/-- Strategy 4 of `src/app.py` lines 57-60. -/
def strat4 : List Str → Option Str
  | [] => none
  | line :: rest =>
    if 10 < line.length ∧ line.length < 100 then
      if !containsAny header_words (pyLower line) then some line
      else strat4 rest
    else strat4 rest

/-- `extract_product_name` from `src/app.py` lines 27-62. -/
def extract_product_name (text : Str) : Option Str :=
  let lines := pyLines text
  match strat1 lines with
  | some r => some r
  | none =>
    match strat2 lines with
    | some r => some r
    | none =>
      match strat3 lines with
      | some r => some r
      | none => strat4 lines

end App

theorem app_keywords_eq : App.product_keywords = product_keywords := rfl

theorem app_excludes_eq : App.exclude_phrases = exclude_phrases := rfl

theorem app_triggers_eq : App.trigger_phrases = trigger_phrases := rfl

theorem app_headers_eq : App.header_words = header_words := rfl

theorem app_pyLines_eq (t : Str) : App.pyLines t = pyLines t := rfl

theorem app_strat1_eq (ls : List Str) : App.strat1 ls = strat1 ls := by
  induction ls with
  | nil => rfl
  | cons line rest ih =>
    simp only [App.strat1, strat1, app_keywords_eq, app_excludes_eq, ih]

theorem app_strat2Go_eq (rest : List Str) : ∀ prev,
    App.strat2Go prev rest = strat2Go prev rest := by
  induction rest with
  | nil => intro prev; rfl
  | cons line r2 ih =>
    intro prev
    simp only [App.strat2Go, strat2Go, app_triggers_eq, ih line]

theorem app_strat2_eq (ls : List Str) : App.strat2 ls = strat2 ls := by
  cases ls with
  | nil => rfl
  | cons first rest => exact app_strat2Go_eq rest first

theorem app_strat3_eq (ls : List Str) : App.strat3 ls = strat3 ls := by
  induction ls with
  | nil => rfl
  | cons line rest ih =>
    simp only [App.strat3, strat3, ih]

theorem app_strat4_eq (ls : List Str) : App.strat4 ls = strat4 ls := by
  induction ls with
  | nil => rfl
  | cons line rest ih =>
    simp only [App.strat4, strat4, app_headers_eq, ih]

/-- C10: the copies of the core in `src/main.py` and `src/app.py` are
extensionally equal: both `clean_text`s agree on every string, and both
`extract_product_name`s agree on every text. -/
theorem claim_C10 :
    (∀ s, clean_text s = App.clean_text s) ∧
    (∀ t, extract_product_name t = App.extract_product_name t) := by
  refine ⟨fun s => rfl, fun t => ?_⟩
  simp only [extract_product_name, App.extract_product_name, app_pyLines_eq,
    app_strat1_eq, app_strat2_eq, app_strat3_eq, app_strat4_eq]
